import Mathlib

/-!
Shallow embedding of the tocer TOC-manifest parser (src/lib.rs).

Rust string slices are modelled as lists of characters.  Rust byte-indexed
slicing (the expressions &s[..i] and &s[i..] in the source) is modelled
explicitly through UTF-8 byte counts: slicing at an offset that is not a
character boundary is a Rust panic, modelled as Except.error ().
-/

namespace Tocer

/-- UTF-8 encoded size of a character, as Rust lays strings out. -/
def utf8Size (c : Char) : Nat :=
  if c.toNat < 0x80 then 1
  else if c.toNat < 0x800 then 2
  else if c.toNat < 0x10000 then 3
  else 4

/-- Total UTF-8 byte length of a string. -/
def byteLen : List Char → Nat
  | [] => 0
  | c :: cs => utf8Size c + byteLen cs

/-- Rust char::is_whitespace: the Unicode White_Space property. -/
def isWS (c : Char) : Bool :=
  decide ((9 ≤ c.toNat ∧ c.toNat ≤ 13) ∨ c.toNat = 32 ∨ c.toNat = 0x85 ∨
    c.toNat = 0xA0 ∨ c.toNat = 0x1680 ∨ (0x2000 ≤ c.toNat ∧ c.toNat ≤ 0x200A) ∨
    c.toNat = 0x2028 ∨ c.toNat = 0x2029 ∨ c.toNat = 0x202F ∨ c.toNat = 0x205F ∨
    c.toNat = 0x3000)

def trimStart (l : List Char) : List Char := l.dropWhile isWS

def trimEnd (l : List Char) : List Char := (l.reverse.dropWhile isWS).reverse

/-- Rust str::trim: strip whitespace from both ends. -/
def trim (l : List Char) : List Char := trimStart (trimEnd l)

/-- Character index of the first colon, as the loop
for (i, ch) in input.chars().enumerate() in the Rust key function finds it. -/
def firstColonIdx : List Char → Option Nat
  | [] => none
  | c :: cs => if c = ':' then some 0 else (firstColonIdx cs).map (· + 1)

/-- Split a string at a byte offset n: some when n is a character boundary
(then &s[..n] and &s[n..] are the two halves), none when slicing there is a
Rust panic ("byte index n is not a char boundary"). -/
def splitAtByteB : Nat → List Char → Option (List Char × List Char)
  | 0, l => some ([], l)
  | _ + 1, [] => none
  | n + 1, c :: cs =>
    if utf8Size c ≤ n + 1 then
      (splitAtByteB (n + 1 - utf8Size c) cs).map (fun p => (c :: p.1, p.2))
    else none

/-- Rust fn key_value_pair_begin: require two leading '#' characters and
return the remainder; none models the Err case. -/
def key_value_pair_begin (input : List Char) : Option (List Char) :=
  match input with
  | c1 :: c2 :: rest => if c1 = '#' then (if c2 = '#' then some rest else none) else none
  | _ => none

/-- Byte-slice the input at offset i, as the return statement of the Rust
key function does: Except.error () models the slice panicking when i is not
a character boundary. -/
def keySlice (i : Nat) (input : List Char) : Except Unit (Option (List Char × List Char)) :=
  match splitAtByteB i input with
  | none => .error ()
  | some (pre, post) => .ok (some (trim pre, post))

/-- Rust fn key: find the first ':' by character index i, then byte-slice the
input at offset i; Except.ok none models Err(input). -/
def key (input : List Char) : Except Unit (Option (List Char × List Char)) :=
  match firstColonIdx input with
  | none => .ok none
  | some i => keySlice i input

/-- Rust fn value: require a leading ':' and trim the remainder. -/
def value : List Char → Option (List Char)
  | [] => none
  | c :: rest => if c = ':' then some (trim rest) else none

/-- Pair the parsed key with the outcome of value on the rest of the line
(the second statement of the Rust key_value_pair body). -/
def valueStep (k rest : List Char) : Except Unit (Option (List Char × List Char)) :=
  match value rest with
  | none => .ok none
  | some v => .ok (some (k, v))

/-- Run key then value on the text following the two leading '#'. -/
def keyThenValue (input : List Char) : Except Unit (Option (List Char × List Char)) :=
  match key input with
  | .error e => .error e
  | .ok none => .ok none
  | .ok (some (k, rest)) => valueStep k rest

/-- Rust fn key_value_pair: compose begin, key and value; ok none models any
Err outcome, error () a panic inside key. -/
def key_value_pair (input : List Char) : Except Unit (Option (List Char × List Char)) :=
  match key_value_pair_begin input with
  | none => .ok none
  | some r => keyThenValue r

/-- Rust fn file_path: a line not starting with '#' is a file path, trimmed. -/
def file_path : List Char → Option (List Char)
  | [] => some []
  | c :: rest => if c = '#' then none else some (trim (c :: rest))

/-- Key extracted by key_value_pair, when the line parses as a tag. -/
def tagKeyOf (l : List Char) : Option (List Char) :=
  match key_value_pair l with
  | .ok (some (k, _)) => some k
  | _ => none

/-- The result struct Toc: tags modelled as an association list with
HashMap-insert semantics, files as an ordered list. -/
structure Toc where
  tags : List (List Char × List Char)
  files : List (List Char)
deriving DecidableEq

/-- HashMap::insert semantics on the association list: overwrite the entry
with an equal key, or append a fresh entry. -/
def insertTag : List (List Char × List Char) → List Char → List Char → List (List Char × List Char)
  | [], k, v => [(k, v)]
  | (k0, v0) :: rest, k, v =>
    if k0 = k then (k, v) :: rest else (k0, v0) :: insertTag rest k v

/-- HashMap lookup on the association list. -/
def lookupTag : List (List Char × List Char) → List Char → Option (List Char)
  | [], _ => none
  | (k0, v0) :: rest, k => if k0 = k then some v0 else lookupTag rest k

/-- One iteration of the while loop in Toc::from_reader: classify one raw
line (terminator included) and update the accumulated state. -/
def processLine (st : Toc) (l : List Char) : Except Unit Toc :=
  match key_value_pair l with
  | .error e => .error e
  | .ok (some (k, v)) => .ok ⟨insertTag st.tags k v, st.files⟩
  | .ok none =>
    match file_path l with
    | some p => .ok ⟨st.tags, st.files ++ [p]⟩
    | none => .ok st

/-- The whole while loop of Toc::from_reader over a list of raw lines. -/
def processLines : Toc → List (List Char) → Except Unit Toc
  | st, [] => .ok st
  | st, l :: ls =>
    match processLine st l with
    | .error e => .error e
    | .ok st1 => processLines st1 ls

/-- Accumulator for splitLines: cur holds the current line reversed. -/
def splitLinesAux : List Char → List Char → List (List Char)
  | [], [] => []
  | c :: cur, [] => [(c :: cur).reverse]
  | cur, c :: cs =>
    if c = '\n' then (cur.reverse ++ ['\n']) :: splitLinesAux [] cs
    else splitLinesAux (c :: cur) cs

/-- BufRead::read_line iterated to exhaustion: split the stream into raw
lines, each keeping its terminating newline; a final unterminated line is
kept, and end of input directly after a terminator yields nothing. -/
def splitLines (input : List Char) : List (List Char) :=
  splitLinesAux [] input

/-- Toc::from_reader on a fault-free character stream: read lines and fold
the classifier over them; error () models a panic inside key. -/
def from_reader_chars (input : List Char) : Except Unit Toc :=
  processLines ⟨[], []⟩ (splitLines input)

/-- A raw line made of terminator-free content followed by a line
terminator: nothing (end of input), a bare newline, or a carriage return +
newline pair. -/
def WellTerminated (l : List Char) : Prop :=
  ∃ c t, l = c ++ t ∧ '\n' ∉ c ∧ '\r' ∉ c ∧ (t = [] ∨ t = ['\n'] ∨ t = ['\r', '\n'])

/-- A string free of the two line-terminator characters. -/
def CleanStr (s : List Char) : Prop := '\n' ∉ s ∧ '\r' ∉ s

/-- All extracted strings in the accumulated state are terminator-free. -/
def CleanToc (st : Toc) : Prop :=
  (∀ kv ∈ st.tags, CleanStr kv.1 ∧ CleanStr kv.2) ∧ ∀ f ∈ st.files, CleanStr f

/-- True when the string ends with a newline character. -/
def endsNL : List Char → Bool
  | [] => false
  | [c] => decide (c = '\n')
  | _ :: c :: cs => endsNL (c :: cs)

/-- A reader that delivers data and then either ends cleanly or reports an
I/O error on the next read. -/
structure FStream where
  data : List Char
  faulty : Bool

inductive RunErr where
  | ioFault
  | crash
deriving DecidableEq

/-- The raw lines fully delivered before a read fault: a trailing
unterminated chunk is consumed into the buffer but its read_line call
returns the error, so the chunk is never classified. -/
def terminatedLines (input : List Char) : List (List Char) :=
  (splitLines input).filter (fun l => endsNL l)

/-- Toc::from_reader on a possibly faulting reader: lines delivered before
the fault are classified in order (a panic there aborts first); reaching the
fault returns the I/O error with no partial result. -/
def from_reader (s : FStream) : Except RunErr Toc :=
  if s.faulty then
    match processLines ⟨[], []⟩ (terminatedLines s.data) with
    | .error _ => .error .crash
    | .ok _ => .error .ioFault
  else
    match processLines ⟨[], []⟩ (splitLines s.data) with
    | .error _ => .error .crash
    | .ok t => .ok t

/-! Helper lemmas about the string primitives. -/

theorem one_le_utf8Size (c : Char) : 1 ≤ utf8Size c := by
  unfold utf8Size
  split
  · exact Nat.le_refl 1
  · split
    · omega
    · split <;> omega

theorem length_le_byteLen (l : List Char) : l.length ≤ byteLen l := by
  induction l with
  | nil => simp [byteLen]
  | cons c cs ih =>
    have := one_le_utf8Size c
    simp only [List.length_cons, byteLen]
    omega

theorem byteLen_append (a b : List Char) : byteLen (a ++ b) = byteLen a + byteLen b := by
  induction a with
  | nil => simp [byteLen]
  | cons c cs ih =>
    rw [List.cons_append, byteLen, byteLen, ih]
    omega

theorem mem_of_mem_dropWhile {p : Char → Bool} {l : List Char} {x : Char}
    (h : x ∈ l.dropWhile p) : x ∈ l := by
  induction l with
  | nil => simpa using h
  | cons c cs ih =>
    by_cases hc : p c
    · rw [List.dropWhile_cons_of_pos hc] at h
      exact List.mem_cons_of_mem _ (ih h)
    · rwa [List.dropWhile_cons_of_neg hc] at h

theorem dropWhile_append_all {p : Char → Bool} {a : List Char} (b : List Char)
    (h : ∀ c ∈ a, p c = true) : (a ++ b).dropWhile p = b.dropWhile p := by
  induction a with
  | nil => simp
  | cons c cs ih =>
    have hc : p c = true := h c (List.mem_cons_self c cs)
    rw [List.cons_append, List.dropWhile_cons_of_pos hc]
    exact ih (fun x hx => h x (List.mem_cons_of_mem _ hx))

theorem dropWhile_all {p : Char → Bool} {a : List Char}
    (h : ∀ c ∈ a, p c = true) : a.dropWhile p = [] := by
  have h2 := dropWhile_append_all (p := p) (a := a) [] h
  simpa using h2

theorem mem_of_mem_trim {l : List Char} {x : Char} (h : x ∈ trim l) : x ∈ l := by
  have h1 : x ∈ trimEnd l := mem_of_mem_dropWhile h
  unfold trimEnd at h1
  rw [List.mem_reverse] at h1
  have h2 := mem_of_mem_dropWhile h1
  rwa [List.mem_reverse] at h2

theorem trimEnd_append_ws {t : List Char} (s : List Char)
    (h : ∀ c ∈ t, isWS c = true) : trimEnd (s ++ t) = trimEnd s := by
  unfold trimEnd
  rw [List.reverse_append, dropWhile_append_all s.reverse]
  intro c hc
  exact h c (List.mem_reverse.mp hc)

theorem trim_append_ws {t : List Char} (s : List Char)
    (h : ∀ c ∈ t, isWS c = true) : trim (s ++ t) = trim s := by
  unfold trim
  rw [trimEnd_append_ws s h]

theorem trim_all_ws {l : List Char} (h : ∀ c ∈ l, isWS c = true) : trim l = [] := by
  unfold trim trimEnd trimStart
  rw [dropWhile_all (fun c hc => h c (List.mem_reverse.mp hc))]
  simp

theorem trim_nil : trim [] = [] := rfl

/-! Helper lemmas about firstColonIdx. -/

theorem firstColonIdx_eq_none {l : List Char} (h : ':' ∉ l) : firstColonIdx l = none := by
  induction l with
  | nil => rfl
  | cons c cs ih =>
    have hc : ¬ c = ':' := fun he => h (he ▸ List.mem_cons_self c cs)
    rw [firstColonIdx, if_neg hc, ih (fun hm => h (List.mem_cons_of_mem _ hm))]
    rfl

theorem firstColonIdx_none_not_mem {l : List Char} (h : firstColonIdx l = none) : ':' ∉ l := by
  induction l with
  | nil => simp
  | cons c cs ih =>
    rw [firstColonIdx] at h
    by_cases hc : c = ':'
    · rw [if_pos hc] at h
      simp at h
    · rw [if_neg hc] at h
      have hcs : firstColonIdx cs = none := by
        cases he : firstColonIdx cs with
        | none => rfl
        | some j => rw [he] at h; simp at h
      intro hm
      rcases List.mem_cons.mp hm with h1 | h1
      · exact hc h1.symm
      · exact ih hcs h1

theorem firstColonIdx_append_some {r : List Char} {i : Nat} (s : List Char)
    (h : firstColonIdx r = some i) : firstColonIdx (r ++ s) = some i := by
  induction r generalizing i with
  | nil => simp [firstColonIdx] at h
  | cons c cs ih =>
    rw [firstColonIdx] at h
    rw [List.cons_append, firstColonIdx]
    by_cases hc : c = ':'
    · rwa [if_pos hc] at h ⊢
    · rw [if_neg hc] at h ⊢
      cases he : firstColonIdx cs with
      | none => rw [he] at h; simp at h
      | some j =>
        rw [he] at h
        rw [ih he]
        exact h

theorem firstColonIdx_append_none {r : List Char} (s : List Char)
    (h : firstColonIdx r = none) :
    firstColonIdx (r ++ s) = (firstColonIdx s).map (· + r.length) := by
  induction r with
  | nil =>
    rw [List.nil_append, List.length_nil]
    cases he : firstColonIdx s with
    | none => rfl
    | some j => simp
  | cons c cs ih =>
    rw [firstColonIdx] at h
    by_cases hc : c = ':'
    · rw [if_pos hc] at h; simp at h
    · rw [if_neg hc] at h
      have hcs : firstColonIdx cs = none := by
        cases he : firstColonIdx cs with
        | none => rfl
        | some j => rw [he] at h; simp at h
      rw [List.cons_append, firstColonIdx, if_neg hc, ih hcs]
      cases firstColonIdx s with
      | none => rfl
      | some j =>
        simp [List.length_cons]
        omega

theorem firstColonIdx_inv {r : List Char} {i : Nat} (h : firstColonIdx r = some i) :
    ∃ a b, r = a ++ ':' :: b ∧ ':' ∉ a ∧ a.length = i := by
  induction r generalizing i with
  | nil => simp [firstColonIdx] at h
  | cons c cs ih =>
    rw [firstColonIdx] at h
    by_cases hc : c = ':'
    · rw [if_pos hc] at h
      simp at h
      refine ⟨[], cs, ?_, by simp, by simpa using h⟩
      rw [hc]
      rfl
    · rw [if_neg hc] at h
      cases he : firstColonIdx cs with
      | none => rw [he] at h; simp at h
      | some j =>
        rw [he] at h
        simp at h
        obtain ⟨a, b, h1, h2, h3⟩ := ih he
        refine ⟨c :: a, b, by rw [h1]; rfl, ?_, ?_⟩
        · intro hm
          rcases List.mem_cons.mp hm with h4 | h4
          · exact hc h4.symm
          · exact h2 h4
        · rw [List.length_cons, h3, h]

theorem firstColonIdx_lt_length {r : List Char} {i : Nat}
    (h : firstColonIdx r = some i) : i < r.length := by
  obtain ⟨a, b, h1, _, h3⟩ := firstColonIdx_inv h
  rw [h1, ← h3]
  simp

/-! Helper lemmas about splitAtByteB. -/

theorem splitAtByteB_eq {n : Nat} {l a b : List Char}
    (h : splitAtByteB n l = some (a, b)) : l = a ++ b ∧ byteLen a = n := by
  induction l generalizing n a b with
  | nil =>
    cases n with
    | zero =>
      simp [splitAtByteB] at h
      obtain ⟨ha, hb⟩ := h
      subst ha; subst hb
      exact ⟨rfl, rfl⟩
    | succ m => simp [splitAtByteB] at h
  | cons c cs ih =>
    cases n with
    | zero =>
      simp [splitAtByteB] at h
      obtain ⟨ha, hb⟩ := h
      subst ha; subst hb
      exact ⟨rfl, rfl⟩
    | succ m =>
      rw [splitAtByteB] at h
      by_cases hle : utf8Size c ≤ m + 1
      · rw [if_pos hle] at h
        cases he : splitAtByteB (m + 1 - utf8Size c) cs with
        | none => rw [he] at h; simp at h
        | some p =>
          obtain ⟨p1, p2⟩ := p
          rw [he] at h
          simp at h
          obtain ⟨ha, hb⟩ := h
          subst ha; subst hb
          obtain ⟨h1, h2⟩ := ih he
          refine ⟨by rw [List.cons_append, ← h1], ?_⟩
          rw [byteLen, h2]
          omega
      · rw [if_neg hle] at h; simp at h

theorem splitAtByteB_append_some {n : Nat} {x a b : List Char} (y : List Char)
    (h : splitAtByteB n x = some (a, b)) :
    splitAtByteB n (x ++ y) = some (a, b ++ y) := by
  induction x generalizing n a b with
  | nil =>
    cases n with
    | zero =>
      simp [splitAtByteB] at h
      obtain ⟨ha, hb⟩ := h
      subst ha; subst hb
      simp [splitAtByteB]
    | succ m => simp [splitAtByteB] at h
  | cons c cs ih =>
    cases n with
    | zero =>
      simp [splitAtByteB] at h
      obtain ⟨ha, hb⟩ := h
      subst ha; subst hb
      simp [splitAtByteB]
    | succ m =>
      rw [splitAtByteB] at h
      rw [List.cons_append, splitAtByteB]
      by_cases hle : utf8Size c ≤ m + 1
      · rw [if_pos hle] at h ⊢
        cases he : splitAtByteB (m + 1 - utf8Size c) cs with
        | none => rw [he] at h; simp at h
        | some p =>
          obtain ⟨p1, p2⟩ := p
          rw [he] at h
          simp at h
          obtain ⟨ha, hb⟩ := h
          subst ha; subst hb
          rw [ih he]
          simp
      · rw [if_neg hle] at h; simp at h

theorem splitAtByteB_append_none {n : Nat} {x : List Char} (y : List Char)
    (h : splitAtByteB n x = none) (hle : n ≤ byteLen x) :
    splitAtByteB n (x ++ y) = none := by
  induction x generalizing n with
  | nil =>
    cases n with
    | zero => simp [splitAtByteB] at h
    | succ m => simp [byteLen] at hle
  | cons c cs ih =>
    cases n with
    | zero => simp [splitAtByteB] at h
    | succ m =>
      rw [splitAtByteB] at h
      rw [List.cons_append, splitAtByteB]
      by_cases hc : utf8Size c ≤ m + 1
      · rw [if_pos hc] at h ⊢
        cases he : splitAtByteB (m + 1 - utf8Size c) cs with
        | none =>
          have hle2 : m + 1 - utf8Size c ≤ byteLen cs := by
            rw [byteLen] at hle; omega
          rw [ih he hle2]
          rfl
        | some p => rw [he] at h; simp at h
      · rw [if_neg hc]

theorem splitAtByteB_ascii {a : List Char} (b : List Char)
    (h : ∀ c ∈ a, utf8Size c = 1) :
    splitAtByteB a.length (a ++ b) = some (a, b) := by
  induction a with
  | nil => simp [splitAtByteB]
  | cons c cs ih =>
    have hc : utf8Size c = 1 := h c (List.mem_cons_self c cs)
    rw [List.length_cons, List.cons_append, splitAtByteB, if_pos (by omega), hc,
      Nat.add_sub_cancel, ih (fun x hx => h x (List.mem_cons_of_mem _ hx))]
    rfl


/-! Helper lemmas about the tag map. -/

theorem lookupTag_insertTag_self (t : List (List Char × List Char)) (k v : List Char) :
    lookupTag (insertTag t k v) k = some v := by
  induction t with
  | nil => simp [insertTag, lookupTag]
  | cons e rest ih =>
    obtain ⟨k0, v0⟩ := e
    by_cases hk : k0 = k
    · simp [insertTag, hk, lookupTag]
    · simp [insertTag, hk, lookupTag, ih]

theorem lookupTag_insertTag_ne {t : List (List Char × List Char)} {k q : List Char}
    (v : List Char) (h : q ≠ k) :
    lookupTag (insertTag t k v) q = lookupTag t q := by
  induction t with
  | nil => simp [insertTag, lookupTag, Ne.symm h]
  | cons e rest ih =>
    obtain ⟨k0, v0⟩ := e
    by_cases hk : k0 = k
    · have hk0q : ¬ k0 = q := fun hh => h (hh.symm.trans hk)
      rw [insertTag, if_pos hk, lookupTag, if_neg (Ne.symm h), lookupTag, if_neg hk0q]
    · rw [insertTag, if_neg hk, lookupTag, lookupTag]
      by_cases hq : k0 = q
      · rw [if_pos hq, if_pos hq]
      · rw [if_neg hq, if_neg hq, ih]

theorem mem_insertTag {t : List (List Char × List Char)} {k v : List Char}
    {x : List Char × List Char} (h : x ∈ insertTag t k v) : x ∈ t ∨ x = (k, v) := by
  induction t with
  | nil =>
    rw [insertTag] at h
    exact Or.inr (by simpa using h)
  | cons e rest ih =>
    obtain ⟨k0, v0⟩ := e
    by_cases hk : k0 = k
    · rw [insertTag, if_pos hk] at h
      rcases List.mem_cons.mp h with h1 | h1
      · exact Or.inr h1
      · exact Or.inl (List.mem_cons_of_mem _ h1)
    · rw [insertTag, if_neg hk] at h
      rcases List.mem_cons.mp h with h1 | h1
      · exact Or.inl (h1 ▸ List.mem_cons_self _ _)
      · rcases ih h1 with h2 | h2
        · exact Or.inl (List.mem_cons_of_mem _ h2)
        · exact Or.inr h2

theorem mem_keys_insertTag {t : List (List Char × List Char)} {k v q : List Char}
    (h : q ∈ (insertTag t k v).map Prod.fst) : q ∈ t.map Prod.fst ∨ q = k := by
  rw [List.mem_map] at h
  obtain ⟨x, hx, hq⟩ := h
  rcases mem_insertTag hx with h1 | h1
  · exact Or.inl (List.mem_map.mpr ⟨x, h1, hq⟩)
  · subst h1
    exact Or.inr hq.symm

theorem nodup_keys_insertTag {t : List (List Char × List Char)} {k v : List Char}
    (h : (t.map Prod.fst).Nodup) : ((insertTag t k v).map Prod.fst).Nodup := by
  induction t with
  | nil => simp [insertTag]
  | cons e rest ih =>
    obtain ⟨k0, v0⟩ := e
    rw [List.map_cons, List.nodup_cons] at h
    obtain ⟨hnm, hnd⟩ := h
    by_cases hk : k0 = k
    · rw [insertTag, if_pos hk, List.map_cons, List.nodup_cons]
      exact ⟨hk ▸ hnm, hnd⟩
    · rw [insertTag, if_neg hk, List.map_cons, List.nodup_cons]
      refine ⟨?_, ih hnd⟩
      intro hmem
      rcases mem_keys_insertTag hmem with h1 | h1
      · exact hnm h1
      · exact hk h1

/-! Helper lemmas about the from_reader loop. -/

theorem processLines_append_ok {xs : List (List Char)} {st st1 : Toc} (ys : List (List Char))
    (h : processLines st xs = .ok st1) :
    processLines st (xs ++ ys) = processLines st1 ys := by
  induction xs generalizing st with
  | nil =>
    rw [processLines] at h
    cases h
    rfl
  | cons l ls ih =>
    rw [List.cons_append]
    rw [processLines] at h
    rw [processLines]
    cases hp : processLine st l with
    | error e => rw [hp] at h; simp at h
    | ok st2 => rw [hp] at h; exact ih h

theorem processLines_append_inv {xs ys : List (List Char)} {st st2 : Toc}
    (h : processLines st (xs ++ ys) = .ok st2) :
    ∃ st1, processLines st xs = .ok st1 ∧ processLines st1 ys = .ok st2 := by
  induction xs generalizing st with
  | nil => exact ⟨st, rfl, h⟩
  | cons l ls ih =>
    rw [List.cons_append, processLines] at h
    cases hp : processLine st l with
    | error e => rw [hp] at h; simp at h
    | ok stm =>
      rw [hp] at h
      obtain ⟨st1, h1, h2⟩ := ih h
      refine ⟨st1, ?_, h2⟩
      rw [processLines, hp]
      exact h1

theorem nodup_keys_processLine {l : List Char} {st st1 : Toc}
    (h : processLine st l = .ok st1)
    (hn : (st.tags.map Prod.fst).Nodup) : (st1.tags.map Prod.fst).Nodup := by
  unfold processLine at h
  cases hk : key_value_pair l with
  | error e => rw [hk] at h; simp at h
  | ok o =>
    rw [hk] at h
    cases o with
    | some kv =>
      obtain ⟨k, v⟩ := kv
      have h2 := Except.ok.inj h
      subst h2
      exact nodup_keys_insertTag hn
    | none =>
      cases hfp : file_path l with
      | some p =>
        rw [hfp] at h
        have h2 := Except.ok.inj h
        subst h2
        exact hn
      | none =>
        rw [hfp] at h
        have h2 := Except.ok.inj h
        subst h2
        exact hn

theorem nodup_keys_processLines {ls : List (List Char)} :
    ∀ {st st1 : Toc}, processLines st ls = .ok st1 →
    (st.tags.map Prod.fst).Nodup → (st1.tags.map Prod.fst).Nodup := by
  induction ls with
  | nil =>
    intro st st1 h hn
    rw [processLines] at h
    cases h
    exact hn
  | cons l rest ih =>
    intro st st1 h hn
    rw [processLines] at h
    cases hp : processLine st l with
    | error e => rw [hp] at h; simp at h
    | ok st2 => rw [hp] at h; exact ih h (nodup_keys_processLine hp hn)

theorem lookupTag_processLines_keep {k : List Char} {ls : List (List Char)} :
    ∀ {st st1 : Toc}, processLines st ls = .ok st1 →
    (∀ l ∈ ls, tagKeyOf l ≠ some k) →
    lookupTag st1.tags k = lookupTag st.tags k := by
  induction ls with
  | nil =>
    intro st st1 h _
    rw [processLines] at h
    cases h
    rfl
  | cons l rest ih =>
    intro st st1 h hall
    rw [processLines] at h
    cases hp : processLine st l with
    | error e => rw [hp] at h; simp at h
    | ok st2 =>
      rw [hp] at h
      have h1 : lookupTag st1.tags k = lookupTag st2.tags k :=
        ih h (fun l2 hl2 => hall l2 (List.mem_cons_of_mem _ hl2))
      rw [h1]
      have hl : tagKeyOf l ≠ some k := hall l (List.mem_cons_self _ _)
      unfold processLine at hp
      cases hk : key_value_pair l with
      | error e => rw [hk] at hp; simp at hp
      | ok o =>
        rw [hk] at hp
        cases o with
        | some kv =>
          obtain ⟨k2, v2⟩ := kv
          have h2 := Except.ok.inj hp
          subst h2
          have hk2 : k ≠ k2 := by
            intro he
            apply hl
            unfold tagKeyOf
            rw [hk, ← he]
          exact lookupTag_insertTag_ne v2 hk2
        | none =>
          cases hfp : file_path l with
          | some p =>
            rw [hfp] at hp
            have h2 := Except.ok.inj hp
            subst h2
            rfl
          | none =>
            rw [hfp] at hp
            have h2 := Except.ok.inj hp
            subst h2
            rfl

/-! Helper lemmas about splitLines. -/

theorem isWS_nl : isWS '\n' = true := by decide

theorem isWS_cr : isWS '\r' = true := by decide

theorem splitLinesAux_cons (cur : List Char) (c : Char) (cs : List Char) :
    splitLinesAux cur (c :: cs) =
      if c = '\n' then (cur.reverse ++ ['\n']) :: splitLinesAux [] cs
      else splitLinesAux (c :: cur) cs := by
  cases cur <;> rfl

theorem splitLinesAux_nil_nil : splitLinesAux [] [] = [] := rfl

theorem splitLinesAux_cons_nil (c : Char) (cur : List Char) :
    splitLinesAux (c :: cur) [] = [(c :: cur).reverse] := rfl

theorem endsNL_cons_cons (a b : Char) (l : List Char) :
    endsNL (a :: b :: l) = endsNL (b :: l) := rfl

theorem endsNL_concat_nl (l : List Char) : endsNL (l ++ ['\n']) = true := by
  induction l with
  | nil => rfl
  | cons c cs ih =>
    cases cs with
    | nil => rfl
    | cons d ds =>
      rw [List.cons_append, List.cons_append, endsNL_cons_cons, ← List.cons_append]
      exact ih

theorem splitLinesAux_append {p : List Char} (hp : endsNL p = true) :
    ∀ cur q, splitLinesAux cur (p ++ q) = splitLinesAux cur p ++ splitLinesAux [] q := by
  induction p with
  | nil => simp [endsNL] at hp
  | cons c cs ih =>
    intro cur q
    rw [List.cons_append, splitLinesAux_cons, splitLinesAux_cons]
    by_cases hc : c = '\n'
    · rw [if_pos hc, if_pos hc, List.cons_append]
      congr 1
      cases cs with
      | nil => simp [splitLinesAux_nil_nil]
      | cons d ds =>
        have hcs : endsNL (d :: ds) = true := by rwa [endsNL_cons_cons] at hp
        exact ih hcs [] q
    · rw [if_neg hc, if_neg hc]
      cases cs with
      | nil =>
        exfalso
        rw [show endsNL [c] = decide (c = '\n') from rfl] at hp
        simp at hp
        exact hc hp
      | cons d ds =>
        have hcs : endsNL (d :: ds) = true := by rwa [endsNL_cons_cons] at hp
        exact ih hcs (c :: cur) q

theorem splitLines_append {p : List Char} (q : List Char) (hp : endsNL p = true) :
    splitLines (p ++ q) = splitLines p ++ splitLines q := by
  unfold splitLines
  exact splitLinesAux_append hp [] q

theorem splitLinesAux_no_nl {l : List Char} (h : '\n' ∉ l) :
    ∀ cur, splitLinesAux cur l =
      if cur.reverse ++ l = [] then [] else [cur.reverse ++ l] := by
  induction l with
  | nil =>
    intro cur
    cases cur with
    | nil => rfl
    | cons c cs =>
      rw [splitLinesAux_cons_nil, if_neg (by simp)]
      simp
  | cons c cs ih =>
    intro cur
    have hc : ¬ c = '\n' := fun he => h (he ▸ List.mem_cons_self c cs)
    rw [splitLinesAux_cons, if_neg hc, ih (fun hm => h (List.mem_cons_of_mem _ hm)) (c :: cur)]
    rw [if_neg (by simp), if_neg (by simp)]
    congr 1
    simp

theorem splitLines_single {l : List Char} (h : '\n' ∉ l) (hne : l ≠ []) :
    splitLines l = [l] := by
  unfold splitLines
  rw [splitLinesAux_no_nl h [], if_neg (by simpa using hne)]
  simp

theorem splitLinesAux_mem_ne_nil {inp : List Char} :
    ∀ {cur l : List Char}, l ∈ splitLinesAux cur inp → l ≠ [] := by
  induction inp with
  | nil =>
    intro cur l hl
    cases cur with
    | nil => simp [splitLinesAux_nil_nil] at hl
    | cons c cs =>
      rw [splitLinesAux_cons_nil] at hl
      simp at hl
      subst hl
      simp
  | cons c cs ih =>
    intro cur l hl
    rw [splitLinesAux_cons] at hl
    by_cases hc : c = '\n'
    · rw [if_pos hc] at hl
      rcases List.mem_cons.mp hl with h1 | h1
      · subst h1; simp
      · exact ih h1
    · rw [if_neg hc] at hl
      exact ih hl

theorem splitLines_mem_ne_nil {input l : List Char}
    (h : l ∈ splitLines input) : l ≠ [] :=
  splitLinesAux_mem_ne_nil h

/-! Lemmas: appending the line terminator does not change classification. -/

theorem kvpb_nil : key_value_pair_begin [] = none := rfl

theorem kvpb_single (c : Char) : key_value_pair_begin [c] = none := rfl

theorem kvpb_cons (c1 c2 : Char) (r : List Char) :
    key_value_pair_begin (c1 :: c2 :: r) =
      if c1 = '#' then (if c2 = '#' then some r else none) else none := rfl

theorem value_cons (c : Char) (r : List Char) :
    value (c :: r) = if c = ':' then some (trim r) else none := rfl

theorem all_ws_nl : ∀ c ∈ ['\n'], isWS c = true := by
  intro c hc
  simp at hc
  subst hc
  exact isWS_nl

theorem valueStep_append_nl (k rest : List Char) :
    valueStep k (rest ++ ['\n']) = valueStep k rest := by
  cases rest with
  | nil => rfl
  | cons c0 r0 =>
    rw [List.cons_append]
    unfold valueStep
    rw [value_cons, value_cons]
    by_cases hc0 : c0 = ':'
    · rw [if_pos hc0, if_pos hc0, trim_append_ws r0 all_ws_nl]
    · rw [if_neg hc0, if_neg hc0]

theorem keyThenValue_append_nl (r : List Char) :
    keyThenValue (r ++ ['\n']) = keyThenValue r := by
  cases hf : firstColonIdx r with
  | none =>
    have h2 : firstColonIdx (r ++ ['\n']) = none := by
      rw [firstColonIdx_append_none ['\n'] hf]
      rfl
    simp only [keyThenValue, key, hf, h2]
  | some i =>
    have h2 : firstColonIdx (r ++ ['\n']) = some i := firstColonIdx_append_some ['\n'] hf
    have hle : i ≤ byteLen r :=
      le_trans (le_of_lt (firstColonIdx_lt_length hf)) (length_le_byteLen r)
    cases hs : splitAtByteB i r with
    | none =>
      have h3 := splitAtByteB_append_none ['\n'] hs hle
      simp only [keyThenValue, key, hf, h2, keySlice, hs, h3]
    | some p =>
      obtain ⟨pre, post⟩ := p
      have h3 := splitAtByteB_append_some ['\n'] hs
      simp only [keyThenValue, key, hf, h2, keySlice, hs, h3]
      exact valueStep_append_nl (trim pre) post

theorem key_value_pair_append_nl (l : List Char) :
    key_value_pair (l ++ ['\n']) = key_value_pair l := by
  cases l with
  | nil => rfl
  | cons c1 rest1 =>
    cases rest1 with
    | nil =>
      show key_value_pair [c1, '\n'] = key_value_pair [c1]
      simp only [key_value_pair, kvpb_single, kvpb_cons]
      by_cases hc1 : c1 = '#'
      · rw [if_pos hc1, if_neg (by decide : ¬ ('\n' = '#'))]
      · rw [if_neg hc1]
    | cons c2 rest2 =>
      show key_value_pair (c1 :: c2 :: (rest2 ++ ['\n'])) = key_value_pair (c1 :: c2 :: rest2)
      simp only [key_value_pair, kvpb_cons]
      by_cases h1 : c1 = '#'
      · by_cases h2 : c2 = '#'
        · rw [if_pos h1, if_pos h2, if_pos h1, if_pos h2]
          exact keyThenValue_append_nl rest2
        · rw [if_pos h1, if_neg h2, if_pos h1, if_neg h2]
      · rw [if_neg h1, if_neg h1]

theorem file_path_cons (c : Char) (rest : List Char) :
    file_path (c :: rest) = if c = '#' then none else some (trim (c :: rest)) := rfl

theorem file_path_append_nl (l : List Char) : file_path (l ++ ['\n']) = file_path l := by
  cases l with
  | nil => rfl
  | cons c cs =>
    rw [List.cons_append, file_path_cons, file_path_cons]
    by_cases hc : c = '#'
    · rw [if_pos hc, if_pos hc]
    · rw [if_neg hc, if_neg hc, ← List.cons_append, trim_append_ws (c :: cs) all_ws_nl]

theorem processLine_append_nl (st : Toc) (l : List Char) :
    processLine st (l ++ ['\n']) = processLine st l := by
  unfold processLine
  rw [key_value_pair_append_nl l, file_path_append_nl l]

theorem splitLinesAux_concat_nl {s : List Char} (h : '\n' ∉ s) :
    ∀ cur, splitLinesAux cur (s ++ ['\n']) = [cur.reverse ++ s ++ ['\n']] := by
  induction s with
  | nil =>
    intro cur
    rw [List.nil_append, splitLinesAux_cons, if_pos rfl, splitLinesAux_nil_nil]
    simp
  | cons c cs ih =>
    intro cur
    have hc : ¬ c = '\n' := fun he => h (he ▸ List.mem_cons_self c cs)
    rw [List.cons_append, splitLinesAux_cons, if_neg hc,
      ih (fun hm => h (List.mem_cons_of_mem _ hm)) (c :: cur)]
    simp

theorem splitLines_concat_nl {s : List Char} (h : '\n' ∉ s) :
    splitLines (s ++ ['\n']) = [s ++ ['\n']] := by
  unfold splitLines
  rw [splitLinesAux_concat_nl h []]
  simp

theorem from_reader_chars_append_nl {s : List Char} (h : '\n' ∉ s) (hne : s ≠ []) :
    from_reader_chars (s ++ ['\n']) = from_reader_chars s := by
  unfold from_reader_chars
  rw [splitLines_single h hne, splitLines_concat_nl h]
  unfold processLines
  rw [processLine_append_nl ⟨[], []⟩ s]

/-! Inversion: what a successful tag parse tells about the line. -/

theorem take_append_le {a : List Char} {n : Nat} (b : List Char) (h : n ≤ a.length) :
    (a ++ b).take n = a.take n := by
  induction a generalizing n with
  | nil =>
    have h0 : n = 0 := Nat.le_zero.mp h
    subst h0
    simp
  | cons c cs ih =>
    cases n with
    | zero => simp
    | succ m =>
      rw [List.cons_append, List.take_succ_cons, List.take_succ_cons,
        ih (Nat.le_of_succ_le_succ h)]

theorem key_value_pair_inv {l k v : List Char}
    (h : key_value_pair l = .ok (some (k, v))) :
    ∃ a b, l = '#' :: '#' :: (a ++ ':' :: b) ∧ ':' ∉ a ∧ k = trim a ∧ v = trim b := by
  cases l with
  | nil => simp [key_value_pair, key_value_pair_begin] at h
  | cons c1 rest1 =>
    cases rest1 with
    | nil => simp [key_value_pair, key_value_pair_begin] at h
    | cons c2 rest2 =>
      rw [key_value_pair, kvpb_cons] at h
      by_cases h1 : c1 = '#'
      · by_cases h2 : c2 = '#'
        · rw [if_pos h1, if_pos h2] at h
          subst h1
          subst h2
          have h3 : keyThenValue rest2 = .ok (some (k, v)) := h
          rw [keyThenValue, key] at h3
          cases hf : firstColonIdx rest2 with
          | none => rw [hf] at h3; simp at h3
          | some i =>
            rw [hf] at h3
            cases hs : splitAtByteB i rest2 with
            | none => simp [keySlice, hs] at h3
            | some p =>
              obtain ⟨pre, post⟩ := p
              simp only [keySlice, hs] at h3
              cases hv : value post with
              | none => simp [valueStep, hv] at h3
              | some v2 =>
                simp only [valueStep, hv, Except.ok.injEq, Option.some.injEq,
                  Prod.mk.injEq] at h3
                obtain ⟨hk5, hv5⟩ := h3
                cases post with
                | nil => simp [value] at hv
                | cons c0 r0 =>
                  rw [value_cons] at hv
                  by_cases hc0 : c0 = ':'
                  · rw [if_pos hc0] at hv
                    simp at hv
                    subst hc0
                    obtain ⟨heq, hby⟩ := splitAtByteB_eq hs
                    obtain ⟨a0, b0, hr, hna, hlen⟩ := firstColonIdx_inv hf
                    have hpre_len : pre.length ≤ a0.length := by
                      rw [hlen, ← hby]
                      exact length_le_byteLen pre
                    have hpre_take : pre = a0.take pre.length := by
                      have h6 : rest2.take pre.length = a0.take pre.length := by
                        rw [hr, take_append_le _ hpre_len]
                      rw [← h6, heq, take_append_le _ (Nat.le_refl _), List.take_length]
                    have hna2 : ':' ∉ pre := by
                      intro hmem
                      rw [hpre_take] at hmem
                      exact hna (List.take_subset _ _ hmem)
                    refine ⟨pre, r0, ?_, hna2, hk5.symm, ?_⟩
                    · rw [heq]
                    · rw [← hv5, ← hv]
                  · rw [if_neg hc0] at hv
                    simp at hv
        · rw [if_pos h1, if_neg h2] at h
          simp at h
      · rw [if_neg h1] at h
        simp at h

/-- Forward direction: a well-formed tag line with an all-ASCII key part is
parsed at the first colon. -/
theorem key_value_pair_tag {a : List Char} (v : List Char) (hna : ':' ∉ a)
    (hascii : ∀ c ∈ a, utf8Size c = 1) :
    key_value_pair ('#' :: '#' :: (a ++ ':' :: v)) = .ok (some (trim a, trim v)) := by
  rw [key_value_pair, kvpb_cons, if_pos rfl, if_pos rfl]
  show keyThenValue (a ++ ':' :: v) = .ok (some (trim a, trim v))
  have hf : firstColonIdx (a ++ ':' :: v) = some a.length := by
    rw [firstColonIdx_append_none _ (firstColonIdx_eq_none hna), firstColonIdx, if_pos rfl]
    simp
  have hs : splitAtByteB a.length (a ++ ':' :: v) = some (a, ':' :: v) :=
    splitAtByteB_ascii _ hascii
  simp only [keyThenValue, key, hf, keySlice, hs]
  rfl

theorem prefix_before_colon {c t d b2 : List Char}
    (h : c ++ t = d ++ ':' :: b2) (hnt : ':' ∉ t) :
    ∃ b3, c = d ++ ':' :: b3 := by
  induction d generalizing c with
  | nil =>
    cases c with
    | nil =>
      exfalso
      apply hnt
      rw [List.nil_append] at h
      rw [h]
      exact List.mem_cons_self _ _
    | cons x c2 =>
      rw [List.cons_append, List.nil_append] at h
      obtain ⟨hx, h2⟩ := List.cons.inj h
      exact ⟨c2, by rw [hx]; rfl⟩
  | cons y d2 ih =>
    cases c with
    | nil =>
      exfalso
      apply hnt
      rw [List.nil_append] at h
      rw [h, List.cons_append]
      exact List.mem_cons_of_mem _ (List.mem_append_right _ (List.mem_cons_self _ _))
    | cons x c2 =>
      rw [List.cons_append, List.cons_append] at h
      obtain ⟨hx, h2⟩ := List.cons.inj h
      obtain ⟨b3, h3⟩ := ih h2
      exact ⟨b3, by rw [hx, h3]; rfl⟩

theorem file_path_eq_trim {l p : List Char} (h : file_path l = some p) : p = trim l := by
  cases l with
  | nil =>
    rw [file_path] at h
    exact (Option.some.inj h).symm
  | cons c cs =>
    rw [file_path_cons] at h
    by_cases hc : c = '#'
    · rw [if_pos hc] at h
      simp at h
    · rw [if_neg hc] at h
      exact (Option.some.inj h).symm

/-! Terminator-free extraction: processing a well-terminated line keeps the
accumulated state terminator-free. -/

theorem processLine_clean {l : List Char} {st st1 : Toc}
    (hw : WellTerminated l) (hp : processLine st l = .ok st1)
    (hc : CleanToc st) : CleanToc st1 := by
  obtain ⟨c, t, hl, hnc, hrc, ht⟩ := hw
  have htws : ∀ x ∈ t, isWS x = true := by
    rcases ht with h | h | h <;> subst h
    · intro x hx; simp at hx
    · intro x hx
      simp at hx
      subst hx
      exact isWS_nl
    · intro x hx
      simp at hx
      rcases hx with h | h <;> subst h
      · exact isWS_cr
      · exact isWS_nl
  have htnc : ':' ∉ t := by
    rcases ht with h | h | h <;> subst h
    · simp
    · decide
    · decide
  unfold processLine at hp
  cases hk : key_value_pair l with
  | error er => rw [hk] at hp; simp at hp
  | ok o =>
    rw [hk] at hp
    cases o with
    | some kv =>
      obtain ⟨k, v⟩ := kv
      have h2 := Except.ok.inj hp
      subst h2
      obtain ⟨a, b, hdec, hna, hka, hvb⟩ := key_value_pair_inv hk
      have hca : c ++ t = ('#' :: '#' :: a) ++ ':' :: b := by
        rw [← hl, hdec]
        rfl
      obtain ⟨b3, hc3⟩ := prefix_before_colon hca htnc
      have hac : ∀ x ∈ a, x ∈ c := by
        intro x hx
        rw [hc3]
        exact List.mem_append_left _
          (List.mem_cons_of_mem _ (List.mem_cons_of_mem _ hx))
      have h6 : (('#' :: '#' :: a) ++ ':' :: b3) ++ t = ('#' :: '#' :: a) ++ ':' :: b := by
        rw [← hc3]
        exact hca
      rw [List.append_assoc] at h6
      have h7 := List.append_cancel_left h6
      have h8 : b3 ++ t = b := (List.cons.inj h7).2
      refine ⟨?_, hc.2⟩
      intro kv hkv
      rcases mem_insertTag hkv with hm | hm
      · exact hc.1 kv hm
      · subst hm
        constructor
        · subst hka
          exact ⟨fun hmem => hnc (hac _ (mem_of_mem_trim hmem)),
            fun hmem => hrc (hac _ (mem_of_mem_trim hmem))⟩
        · subst hvb
          have hv3 : trim b = trim b3 := by
            rw [← h8, trim_append_ws b3 htws]
          rw [hv3]
          have hb3c : ∀ x ∈ b3, x ∈ c := by
            intro x hx
            rw [hc3]
            exact List.mem_append_right _ (List.mem_cons_of_mem _ hx)
          exact ⟨fun hmem => hnc (hb3c _ (mem_of_mem_trim hmem)),
            fun hmem => hrc (hb3c _ (mem_of_mem_trim hmem))⟩
    | none =>
      cases hfp : file_path l with
      | some p =>
        rw [hfp] at hp
        have h2 := Except.ok.inj hp
        subst h2
        refine ⟨hc.1, ?_⟩
        intro f0 hf0
        rw [List.mem_append] at hf0
        rcases hf0 with hf0 | hf0
        · exact hc.2 f0 hf0
        · simp at hf0
          subst hf0
          have hpt : f0 = trim c := by
            rw [file_path_eq_trim hfp, hl, trim_append_ws c htws]
          rw [hpt]
          exact ⟨fun hmem => hnc (mem_of_mem_trim hmem),
            fun hmem => hrc (mem_of_mem_trim hmem)⟩
      | none =>
        rw [hfp] at hp
        have h2 := Except.ok.inj hp
        subst h2
        exact hc

theorem processLines_clean {ls : List (List Char)} :
    ∀ {st st1 : Toc}, (∀ l ∈ ls, WellTerminated l) →
    processLines st ls = .ok st1 → CleanToc st → CleanToc st1 := by
  induction ls with
  | nil =>
    intro st st1 _ h hc
    rw [processLines] at h
    have h2 := Except.ok.inj h
    subst h2
    exact hc
  | cons l rest ih =>
    intro st st1 hall h hc
    rw [processLines] at h
    cases hp : processLine st l with
    | error e => rw [hp] at h; simp at h
    | ok st2 =>
      rw [hp] at h
      exact ih (fun l2 hl2 => hall l2 (List.mem_cons_of_mem _ hl2)) h
        (processLine_clean (hall l (List.mem_cons_self _ _)) hp hc)

/-! Simulation: running the loop from an extended initial state. -/

theorem processLine_from_state {l : List Char} {e e2 : Toc} (s base : Toc)
    (hp : processLine e l = .ok e2)
    (hf : s.files = base.files ++ e.files)
    (ht : ∀ q, lookupTag s.tags q = match lookupTag e.tags q with
      | some v => some v
      | none => lookupTag base.tags q) :
    ∃ s2, processLine s l = .ok s2 ∧ s2.files = base.files ++ e2.files ∧
      ∀ q, lookupTag s2.tags q = match lookupTag e2.tags q with
        | some v => some v
        | none => lookupTag base.tags q := by
  unfold processLine at hp ⊢
  cases hk : key_value_pair l with
  | error er => rw [hk] at hp; simp at hp
  | ok o =>
    rw [hk] at hp
    cases o with
    | some kv =>
      obtain ⟨k, v⟩ := kv
      have h2 := Except.ok.inj hp
      subst h2
      refine ⟨⟨insertTag s.tags k v, s.files⟩, rfl, hf, ?_⟩
      intro q
      by_cases hq : q = k
      · subst hq
        rw [lookupTag_insertTag_self, lookupTag_insertTag_self]
      · rw [lookupTag_insertTag_ne v hq, lookupTag_insertTag_ne v hq]
        exact ht q
    | none =>
      cases hfp : file_path l with
      | some p =>
        rw [hfp] at hp
        have h2 := Except.ok.inj hp
        subst h2
        refine ⟨⟨s.tags, s.files ++ [p]⟩, rfl, ?_, ht⟩
        rw [hf, List.append_assoc]
      | none =>
        rw [hfp] at hp
        have h2 := Except.ok.inj hp
        subst h2
        exact ⟨s, rfl, hf, ht⟩

theorem processLines_from_state {ls : List (List Char)} :
    ∀ {e e1 : Toc} (s base : Toc),
    processLines e ls = .ok e1 →
    s.files = base.files ++ e.files →
    (∀ q, lookupTag s.tags q = match lookupTag e.tags q with
      | some v => some v
      | none => lookupTag base.tags q) →
    ∃ s1, processLines s ls = .ok s1 ∧ s1.files = base.files ++ e1.files ∧
      ∀ q, lookupTag s1.tags q = match lookupTag e1.tags q with
        | some v => some v
        | none => lookupTag base.tags q := by
  induction ls with
  | nil =>
    intro e e1 s base he hf ht
    rw [processLines] at he
    have h2 := Except.ok.inj he
    subst h2
    exact ⟨s, rfl, hf, ht⟩
  | cons l rest ih =>
    intro e e1 s base he hf ht
    rw [processLines] at he
    cases hp : processLine e l with
    | error er => rw [hp] at he; simp at he
    | ok e2 =>
      rw [hp] at he
      obtain ⟨s2, hs2, hf2, ht2⟩ := processLine_from_state s base hp hf ht
      obtain ⟨s1, hs1, hf1, ht1⟩ := ih s2 base he hf2 ht2
      refine ⟨s1, ?_, hf1, ht1⟩
      rw [processLines, hs2]
      exact hs1

/-! The claims. -/

/-- C1: the spec claims Toc::from_reader totally classifies every line of a
fault-free stream and returns Ok, explicitly including lines starting with
'##' whose characters before the first ':' are multi-byte.  The code
refutes this: on "##é: 1\n" the Rust key function finds the colon at
character index 1 and byte-slices the line there, but byte offset 1 falls
inside the two-byte UTF-8 encoding of 'é', so the slice panics; the model
returns the panic outcome .error () instead of any Ok value. -/
theorem c1_multibyte_key_crashes :
    from_reader_chars (("##é: 1\n").toList) = .error () := rfl

/-- C2 counterexample: the line "##  : value\n" is not discarded as a
comment: the code has no non-empty-key check, so the tags map receives the
empty-string key mapped to "value", refuting both that no tag is extracted
and that the map never holds an empty-string key. -/
theorem c2_cex_empty_key :
    from_reader_chars (("##  : value\n").toList) =
      .ok ⟨[(([] : List Char), ("value").toList)], []⟩ := rfl

/-- C2 amended: a '##' line whose text before the first ':' is ASCII
whitespace only is parsed as a tag whose key trims to the empty string: the
tags map receives the empty-string key with the trimmed value, and no file
entry is added — the line is not discarded. -/
theorem c2_ws_key_inserted {ws : List Char} (v : List Char) (st : Toc)
    (hws : ∀ c ∈ ws, isWS c = true) (hascii : ∀ c ∈ ws, utf8Size c = 1) :
    processLine st ('#' :: '#' :: (ws ++ ':' :: v)) =
      .ok ⟨insertTag st.tags [] (trim v), st.files⟩ := by
  have hna : ':' ∉ ws := by
    intro hm
    exact absurd (hws ':' hm) (by decide)
  have h3 := key_value_pair_tag v hna hascii
  rw [trim_all_ws hws] at h3
  unfold processLine
  rw [h3]

/-- C2 amended, witnessed at the spec's own example line. -/
theorem c2_ws_key_inserted_witness :
    (∀ c ∈ ("  ").toList, isWS c = true) ∧
    processLine ⟨[], []⟩ ('#' :: '#' :: ((("  ").toList) ++ ':' :: ((" value\n").toList))) =
      .ok ⟨[(([] : List Char), ("value").toList)], []⟩ :=
  ⟨by decide, by
    rw [c2_ws_key_inserted ((" value\n").toList) ⟨[], []⟩ (by decide) (by decide)]
    rfl⟩

/-- C3 counterexample: the empty line with its terminator, "\n", is not
discarded: it does not start with '#', so file_path accepts it and the trim
of "\n" — the empty string — is appended to files. -/
theorem c3_cex_blank_line_file_entry :
    from_reader_chars (("\n").toList) = .ok ⟨[], [([] : List Char)]⟩ := rfl

/-- C3 amended: a nonempty all-whitespace raw line (in particular the empty
line together with its terminator) is classified as a file line and appends
the empty string to files; only the zero-character end-of-input case
contributes nothing, because the line reader never emits an empty raw
line. -/
theorem c3_ws_line_is_file_entry :
    (∀ (st : Toc) (l : List Char), l ≠ [] → (∀ c ∈ l, isWS c = true) →
      processLine st l = .ok ⟨st.tags, st.files ++ [[]]⟩) ∧
    (∀ input raw, raw ∈ splitLines input → raw ≠ []) := by
  constructor
  · intro st l hne hws
    cases l with
    | nil => exact absurd rfl hne
    | cons c0 r =>
      have hc0 : ¬ c0 = '#' := by
        intro he
        have h2 := hws c0 (List.mem_cons_self _ _)
        rw [he] at h2
        exact absurd h2 (by decide)
      have hkv : key_value_pair (c0 :: r) = .ok none := by
        cases r with
        | nil => rw [key_value_pair, kvpb_single]
        | cons c1 r1 => rw [key_value_pair, kvpb_cons, if_neg hc0]
      have hfp : file_path (c0 :: r) = some [] := by
        rw [file_path_cons, if_neg hc0, trim_all_ws hws]
      unfold processLine
      rw [hkv, hfp]
  · intro input raw h
    exact splitLines_mem_ne_nil h

/-- C3 amended, witnessed on the blank line and on a concrete stream. -/
theorem c3_ws_line_is_file_entry_witness :
    processLine ⟨[], []⟩ (("\n").toList) = .ok ⟨[], [([] : List Char)]⟩ ∧
    ("x\n").toList ≠ [] :=
  ⟨by
    rw [c3_ws_line_is_file_entry.1 ⟨[], []⟩ (("\n").toList) (by decide) (by decide)]
    rfl,
    c3_ws_line_is_file_entry.2 (("x\n").toList) (("x\n").toList) (by decide)⟩

/-- C4: a line starting with '##' and containing no colon anywhere is
discarded, for any accumulated state: the tag parse fails (no colon found),
and the file-path rule rejects the leading '#', so neither a tag entry nor
a file entry is produced. -/
theorem c4_double_hash_no_colon_discarded (st : Toc) (l : List Char) (h : ':' ∉ l) :
    processLine st ('#' :: '#' :: l) = .ok st := by
  have hkv : key_value_pair ('#' :: '#' :: l) = .ok none := by
    rw [key_value_pair, kvpb_cons, if_pos rfl, if_pos rfl]
    show keyThenValue l = .ok none
    rw [keyThenValue, key, firstColonIdx_eq_none h]
  have hfp : file_path ('#' :: '#' :: l) = none := by
    rw [file_path_cons, if_pos rfl]
  unfold processLine
  rw [hkv, hfp]

/-- C4, witnessed at the spec's "## bad comment" line. -/
theorem c4_double_hash_no_colon_discarded_witness :
    ':' ∉ (" bad comment\n").toList ∧
    processLine ⟨[], []⟩ ('#' :: '#' :: (" bad comment\n").toList) = .ok ⟨[], []⟩ :=
  ⟨by decide, c4_double_hash_no_colon_discarded ⟨[], []⟩ _ (by decide)⟩

/-- C5: whenever a line is stored as a tag, the split point is the first
colon after the leading '##': the line decomposes as "##" ++ a ++ ":" ++ b
with a colon-free, the stored key is trim a and the stored value is trim b,
so further colons, pipes, ampersands and non-ASCII text in b pass through
into the value unmodified up to end trimming; together with the spec's two
concrete examples. -/
theorem c5_first_colon_separates :
    (∀ l k v, key_value_pair l = .ok (some (k, v)) →
      ∃ a b, l = '#' :: '#' :: (a ++ ':' :: b) ∧ ':' ∉ a ∧ k = trim a ∧ v = trim b) ∧
    from_reader_chars (("##Title: |cff20ff20Bagnon|r\n").toList) =
      .ok ⟨[(("Title").toList, ("|cff20ff20Bagnon|r").toList)], []⟩ ∧
    from_reader_chars (("## Interface: 11302\n").toList) =
      .ok ⟨[(("Interface").toList, ("11302").toList)], []⟩ :=
  ⟨fun _ _ _ h => key_value_pair_inv h, rfl, rfl⟩

/-- C5, witnessed on a tag line whose value holds colons, a pipe, an
ampersand and a non-ASCII character. -/
theorem c5_first_colon_separates_witness :
    ∃ a b, ("##A:b:c|&é\n").toList = '#' :: '#' :: (a ++ ':' :: b) ∧ ':' ∉ a ∧
      ("A").toList = trim a ∧ ("b:c|&é").toList = trim b :=
  c5_first_colon_separates.1 (("##A:b:c|&é\n").toList) (("A").toList)
    (("b:c|&é").toList) rfl

/-- C6: tag keys in the result are unique, and for any input whose line
list contains a tag line for key k after which no further line sets key k,
the stored value for k is exactly that line's value — later duplicates
overwrite earlier ones with no error. -/
theorem c6_last_duplicate_wins :
    (∀ input toc, from_reader_chars input = .ok toc →
      (toc.tags.map Prod.fst).Nodup) ∧
    (∀ input ls1 l ls2 k v toc,
      splitLines input = ls1 ++ l :: ls2 →
      key_value_pair l = .ok (some (k, v)) →
      (∀ lr ∈ ls2, tagKeyOf lr ≠ some k) →
      from_reader_chars input = .ok toc →
      lookupTag toc.tags k = some v) := by
  constructor
  · intro input toc h
    exact nodup_keys_processLines h (by simp)
  · intro input ls1 l ls2 k v toc hsplit hkv hnone h
    unfold from_reader_chars at h
    rw [hsplit] at h
    obtain ⟨st1, h1, h2⟩ := processLines_append_inv h
    rw [processLines] at h2
    cases hp : processLine st1 l with
    | error e => rw [hp] at h2; simp at h2
    | ok st2 =>
      rw [hp] at h2
      have h3 : lookupTag toc.tags k = lookupTag st2.tags k :=
        lookupTag_processLines_keep h2 hnone
      rw [h3]
      unfold processLine at hp
      rw [hkv] at hp
      have h4 := Except.ok.inj hp
      subst h4
      exact lookupTag_insertTag_self st1.tags k v

/-- C6, witnessed on an input with a duplicated key "a". -/
theorem c6_last_duplicate_wins_witness :
    (([((("a").toList), (("2").toList)), ((("b").toList), (("3").toList))].map
      Prod.fst).Nodup) ∧
    lookupTag [((("a").toList), (("2").toList)), ((("b").toList), (("3").toList))]
      (("a").toList) = some (("2").toList) := by
  constructor
  · exact c6_last_duplicate_wins.1 (("##a: 1\n##a: 2\n##b: 3\n").toList)
      ⟨[((("a").toList), (("2").toList)), ((("b").toList), (("3").toList))], []⟩ rfl
  · exact c6_last_duplicate_wins.2 (("##a: 1\n##a: 2\n##b: 3\n").toList)
      [("##a: 1\n").toList] (("##a: 2\n").toList) [("##b: 3\n").toList]
      (("a").toList) (("2").toList)
      ⟨[((("a").toList), (("2").toList)), ((("b").toList), (("3").toList))], []⟩
      rfl rfl (by decide) rfl

/-- C7: when every raw line of the input is terminator-free content followed
by "\n" or "\r\n" (or by nothing at end of input), no extracted tag key, tag
value or file entry contains a '\n' or '\r' character. -/
theorem c7_no_terminator_in_extracted :
    ∀ input toc, (∀ l ∈ splitLines input, WellTerminated l) →
    from_reader_chars input = .ok toc →
    (∀ kv ∈ toc.tags, CleanStr kv.1 ∧ CleanStr kv.2) ∧
    (∀ f ∈ toc.files, CleanStr f) := by
  intro input toc hwt h
  exact processLines_clean hwt h ⟨by simp, by simp⟩

/-- C7, witnessed on a stream mixing a CRLF tag line and an LF file line. -/
theorem c7_no_terminator_in_extracted_witness :
    (∀ l ∈ splitLines (("##A: B\r\nok.lua\n").toList), WellTerminated l) ∧
    ((∀ kv ∈ ([((("A").toList), (("B").toList))] : List (List Char × List Char)),
      CleanStr kv.1 ∧ CleanStr kv.2) ∧
    (∀ f ∈ [("ok.lua").toList], CleanStr f)) := by
  have hw : ∀ l ∈ splitLines (("##A: B\r\nok.lua\n").toList), WellTerminated l := by
    have hsp : splitLines (("##A: B\r\nok.lua\n").toList) =
        [("##A: B\r\n").toList, ("ok.lua\n").toList] := rfl
    rw [hsp]
    intro l hl
    rcases List.mem_cons.mp hl with h1 | h1
    · subst h1
      exact ⟨("##A: B").toList, ['\r', '\n'], rfl, by decide, by decide,
        Or.inr (Or.inr rfl)⟩
    · rcases List.mem_cons.mp h1 with h2 | h2
      · subst h2
        exact ⟨("ok.lua").toList, ['\n'], rfl, by decide, by decide,
          Or.inr (Or.inl rfl)⟩
      · simp at h2
  exact ⟨hw, c7_no_terminator_in_extracted (("##A: B\r\nok.lua\n").toList)
    ⟨[((("A").toList), (("B").toList))], [("ok.lua").toList]⟩ hw rfl⟩

/-- C8: the empty stream yields an empty result with no error; a final
unterminated line after terminated content still forms its own raw line; a
line is classified identically with or without its trailing newline, so the
final line contributes exactly as a terminated one would; the line reader
emits no empty raw line, so a stream ending exactly at a terminator
produces no extra entry. -/
theorem c8_stream_end_handling :
    from_reader_chars [] = .ok ⟨[], []⟩ ∧
    (∀ p l, endsNL p = true → '\n' ∉ l → l ≠ [] →
      splitLines (p ++ l) = splitLines p ++ [l]) ∧
    (∀ (st : Toc) (l : List Char), processLine st (l ++ ['\n']) = processLine st l) ∧
    (∀ (s : List Char), '\n' ∉ s → s ≠ [] →
      from_reader_chars (s ++ ['\n']) = from_reader_chars s) ∧
    (∀ input raw, raw ∈ splitLines input → raw ≠ []) := by
  refine ⟨rfl, ?_, processLine_append_nl, ?_, ?_⟩
  · intro p l hp hnl hne
    rw [splitLines_append l hp, splitLines_single hnl hne]
  · intro s h hne
    exact from_reader_chars_append_nl h hne
  · intro input raw h
    exact splitLines_mem_ne_nil h

/-- C8, witnessed on concrete streams. -/
theorem c8_stream_end_handling_witness :
    splitLines (("a\nlast").toList) = splitLines (("a\n").toList) ++ [("last").toList] ∧
    from_reader_chars ((("last").toList) ++ ['\n']) = from_reader_chars (("last").toList) ∧
    ("x\n").toList ≠ [] :=
  ⟨c8_stream_end_handling.2.1 (("a\n").toList) (("last").toList)
      (by decide) (by decide) (by decide),
    c8_stream_end_handling.2.2.2.1 (("last").toList) (by decide) (by decide),
    c8_stream_end_handling.2.2.2.2 (("x\n").toList) (("x\n").toList) (by decide)⟩

/-- C9: the spec claims the only failure mode of Toc::from_reader is a read
fault from the stream, and that a fault-free stream always returns Ok.  The
first conjunct refutes the Ok half on the code: the fault-free stream
"##é: 1\n" makes the key function panic on a non-boundary byte slice, so
no Ok is returned.  The remaining conjuncts record the true half: a
faulting stream surfaces the I/O error with no partial result, and the same
data without a panicking line parses to Ok when fault-free. -/
theorem c9_failure_modes :
    from_reader ⟨("##é: 1\n").toList, false⟩ = .error .crash ∧
    from_reader ⟨("ok.lua\n").toList, true⟩ = .error .ioFault ∧
    from_reader ⟨("ok.lua\n").toList, false⟩ = .ok ⟨[], [("ok.lua").toList]⟩ :=
  ⟨rfl, rfl, rfl⟩

/-- C10 counterexample: with A = "a" and B = "b" — two manifests with
disjoint one-file lists — parsing A ++ B = "ab" yields files ["ab"], not
files(A) ++ files(B) = ["a", "b"]: without a trailing newline on A, the
last line of A and the first line of B fuse into one line. -/
theorem c10_cex_unterminated_concat :
    from_reader_chars (("a").toList) = .ok ⟨[], [("a").toList]⟩ ∧
    from_reader_chars (("b").toList) = .ok ⟨[], [("b").toList]⟩ ∧
    from_reader_chars ((("a").toList) ++ (("b").toList)) = .ok ⟨[], [("ab").toList]⟩ ∧
    (∀ f ∈ [("a").toList], f ∉ [("b").toList]) ∧
    [("ab").toList] ≠ [("a").toList] ++ [("b").toList] :=
  ⟨rfl, rfl, rfl, by decide, by decide⟩

/-- C10 amended: provided A is empty or ends with a newline (its last line
is terminated), the concatenation of two successfully parsed manifests with
disjoint file lists parses to the concatenation of the file lists and the
right-biased merge of the tag maps (B's value wins on any shared key). -/
theorem c10_concat_merge {A B : List Char} {ta tb : Toc}
    (hterm : A = [] ∨ endsNL A = true)
    (_hdisj : ∀ f ∈ ta.files, f ∉ tb.files)
    (ha : from_reader_chars A = .ok ta) (hb : from_reader_chars B = .ok tb) :
    ∃ tc, from_reader_chars (A ++ B) = .ok tc ∧
      tc.files = ta.files ++ tb.files ∧
      ∀ q, lookupTag tc.tags q = match lookupTag tb.tags q with
        | some v => some v
        | none => lookupTag ta.tags q := by
  unfold from_reader_chars at ha hb ⊢
  have hsp : splitLines (A ++ B) = splitLines A ++ splitLines B := by
    rcases hterm with h | h
    · subst h
      rfl
    · exact splitLines_append B h
  rw [hsp, processLines_append_ok (splitLines B) ha]
  exact processLines_from_state ta ta hb (by simp) (fun q => rfl)

/-- C10 amended, witnessed on two newline-terminated manifests sharing the
tag key "k". -/
theorem c10_concat_merge_witness :
    ∃ tc, from_reader_chars ((("a.lua\n##k: 1\n").toList) ++ (("b.lua\n##k: 2\n").toList)) =
        .ok tc ∧
      tc.files = [("a.lua").toList] ++ [("b.lua").toList] ∧
      ∀ q, lookupTag tc.tags q =
        match lookupTag [((("k").toList), (("2").toList))] q with
        | some v => some v
        | none => lookupTag [((("k").toList), (("1").toList))] q :=
  @c10_concat_merge (("a.lua\n##k: 1\n").toList) (("b.lua\n##k: 2\n").toList)
    ⟨[((("k").toList), (("1").toList))], [("a.lua").toList]⟩
    ⟨[((("k").toList), (("2").toList))], [("b.lua").toList]⟩
    (Or.inr (by decide)) (by decide) rfl rfl

/-! Regression theorems mirroring the test corpus of src/lib.rs. -/

/-- The file-classification test corpus of the Rust test suite, reproduced
on the model. -/
theorem rust_test_files_corpus :
    from_reader_chars
      (("a.lua\nb.lua\n# comment\nc.lua  \n## bad comment\ndir\\d.xml\n f").toList) =
    .ok ⟨[], [("a.lua").toList, ("b.lua").toList, ("c.lua").toList,
      ("dir\\d.xml").toList, ("f").toList]⟩ := rfl

/-- One tag line of the Rust tag test corpus with a non-ASCII value, plus
the whitespace-heavy OptionalDeps line, reproduced on the model. -/
theorem rust_test_tags_corpus :
    from_reader_chars (("## Author: Tuller & Jaliborc (João Cardoso)\n").toList) =
      .ok ⟨[(("Author").toList, ("Tuller & Jaliborc (João Cardoso)").toList)], []⟩ ∧
    from_reader_chars (("##   \t OptionalDeps : BagBrother, WoWUnit\n").toList) =
      .ok ⟨[(("OptionalDeps").toList, ("BagBrother, WoWUnit").toList)], []⟩ :=
  ⟨rfl, rfl⟩

end Tocer
